import Mathlib

/-!
Rule-based struct validation (`package validation`)

A shallow embedding of `valitation.go`: the reflection calls the package makes
(`Value.FieldByName`, `Value.Interface`, `Type.Elem`, `Type.FieldByName`,
`StructTag.Get`), the helpers `getField` and `getJSONTag`, the engine
`ValidateStruct`, the registration `Register` and the report type `Errors`
with `SetMessage`; then the same engine with the cache of parsed expressions
that the validator library keeps between calls.

A Go panic is an `Except.error`; a normal return is an `Except.ok`.
Field values are an arbitrary type `α`; a registered predicate is a function
from `α` to a verdict or a panic.
-/

set_option linter.dupNamespace false

namespace Validation

/-! ## Run-time failures -/

/-- The panics the package can run into. -/
inductive Panic where
  /-- The panic `reflect: call of reflect.Value.FieldByName on ptr Value`. -/
  | valueFieldByNameOnNonStruct
  /-- The panic `reflect.Value.Interface: cannot return value obtained from
  unexported field or method`. -/
  | interfaceOfUnexported
  /-- The panic `reflect: Elem of invalid type T`, for `T` a struct type. -/
  | elemOfInvalidType
  /-- The panic `reflect: FieldByName of non-struct type T`. -/
  | typeFieldByNameOnNonStruct
  /-- The validator library's panic `Undefined validation function 'tag' on field ''`. -/
  | undefinedValidation (tag : String)
  /-- The panic `runtime error: invalid memory address or nil pointer
  dereference`, raised by a method call on a nil interface value. -/
  | nilDereference
  /-- The validator library's panic `Tag 'tag' either contains restricted
  characters or is the same as a restricted tag needed for normal operation`. -/
  | restrictedTag (tag : String)
  deriving DecidableEq, Repr

/-! ## Reflection data -/

/-- A struct tag, as its key/value pairs: the tag `json:"name" xml:"n"` is
`[("json", "name"), ("xml", "n")]`. -/
abbrev StructTag := List (String × String)

/-- The method `StructTag.Get`: the value under `key`, or the empty string. -/
def StructTag.Get (tag : StructTag) (key : String) : String :=
  (tag.lookup key).getD ""

/-- The fields of `reflect.StructField` the package reads. `PkgPath` is empty
exactly for an exported field. -/
structure StructField where
  Name : String
  PkgPath : String
  Tag : StructTag
  deriving DecidableEq, Repr

/-- A `reflect.Type`, as far as the package distinguishes types: a struct type
with its declared fields, or a pointer type. -/
inductive RType where
  | struct (fields : List StructField)
  | ptr (elem : RType)
  deriving Repr

/-- The method `Type.Elem`: the element type of a pointer type; it panics on a
struct type. -/
def RType.Elem : RType → Except Panic RType
  | .ptr e => .ok e
  | .struct _ => .error .elemOfInvalidType

/-- The method `Type.FieldByName`: the declared field called `name` and whether
it was found; it panics on a type that is not a struct type. -/
def RType.FieldByName : RType → String → Except Panic (Option StructField)
  | .struct fields, name => .ok (fields.find? (fun f => f.Name == name))
  | .ptr _, _ => .error .typeFieldByNameOnNonStruct

/-- The argument `s interface{}` of `ValidateStruct`: a struct value, with
each declared field and its current value, or a pointer to one. -/
inductive Arg (α : Type) where
  | struct (fields : List (StructField × α))
  | ptr (fields : List (StructField × α))

/-- The declared field called `name` of a struct value, with its value. -/
def fieldNamed {α : Type} (fields : List (StructField × α)) (name : String) :
    Option (StructField × α) :=
  fields.find? (fun f => f.1.Name == name)

/-- The type of the argument: `reflect.ValueOf(s).Type()`. -/
def Arg.TypeOf {α : Type} : Arg α → RType
  | .struct fields => .struct (fields.map Prod.fst)
  | .ptr fields => .ptr (.struct (fields.map Prod.fst))

/-- A valid `reflect.Value` obtained from a struct field: the field's value and
the read-only flag that reflection sets for an unexported field. -/
structure Value (α : Type) where
  val : α
  flagRO : Bool

/-- The method `Value.FieldByName` on `reflect.ValueOf(s)`: the field called
`name`, `none` (the zero Value, for which `IsValid` is false) when the struct
has no such field; it panics when the value is not a struct. -/
def Arg.FieldByName {α : Type} : Arg α → String → Except Panic (Option (Value α))
  | .struct fields, name =>
    .ok ((fieldNamed fields name).map
      (fun f => { val := f.2, flagRO := f.1.PkgPath != "" }))
  | .ptr _, _ => .error .valueFieldByNameOnNonStruct

/-- The method `Value.Interface`: the field's value; it panics for a value
obtained from an unexported field. -/
def Value.Interface {α : Type} (fv : Value α) : Except Panic α :=
  if fv.flagRO then .error .interfaceOfUnexported else .ok fv.val

/-! ## Strings -/

/-- The pieces of `s` between the occurrences of the separator `c`, as
`strings.Split` with a one-character separator returns them. -/
def splitChars (c : Char) : List Char → List (List Char)
  | [] => [[]]
  | x :: xs =>
    if x = c then [] :: splitChars c xs
    else
      match splitChars c xs with
      | [] => [[x]]
      | h :: t => (x :: h) :: t

/-- The call `strings.Split(s, ",")`. -/
def Split (s : String) : List String :=
  (splitChars ',' s.data).map String.mk

/-! ## The validator -/

/-- A validation function as the library stores it, of Go type
`func(fl validator.FieldLevel) bool`: the verdict on a field value, or the
panic the call ends in. -/
abbrev Func (α : Type) := α → Except Panic Bool

/-- The validation function that computes `p` and never panics. -/
def pureFunc {α : Type} (p : α → Bool) : Func α :=
  fun x => .ok (p x)

/-- The interface `ValidatorFunc`: an implementation of `Validate`, or the nil
interface value. -/
abbrev ValidatorFunc (α : Type) := Option (Func α)

/-- The `Validator`: the table of validation functions of the wrapped
`validator.Validate`, latest registration first. -/
structure Validator (α : Type) where
  validations : List (String × Func α)

/-- A single validation rule. -/
structure Rule where
  Field : String
  Tag : String
  Message : String
  deriving DecidableEq, Repr

/-- A single validation error. -/
structure Error where
  Field : String
  Message : String
  deriving DecidableEq, Repr

/-- A collection of validation errors; the nil slice is the empty list. -/
abbrev Errors := List Error

/-- The validation functions named by an expression, in order; the first
name that is not registered makes the lookup panic. -/
def resolveTags {α : Type} (v : Validator α) : List String → Except Panic (List (Func α))
  | [] => .ok []
  | name :: rest =>
    match v.validations.lookup name with
    | none => .error (.undefinedValidation name)
    | some fn =>
      match resolveTags v rest with
      | .error p => .error p
      | .ok fns => .ok (fn :: fns)

/-- The resolved validation functions run on the value in order, up to the
first that returns false; the result is `true` when one returned false. -/
def runValidations {α : Type} (field : α) : List (Func α) → Except Panic Bool
  | [] => .ok false
  | fn :: rest =>
    match fn field with
    | .error p => .error p
    | .ok false => .ok true
    | .ok true => runValidations field rest

/-- Modelled from the spec: the call `v.validate.Var(field, tag)` of the
go-playground validator, whose source is not part of the package. The
expression is a comma-separated list of predicate names; every name is resolved
in the registry before any predicate runs, and an unregistered name aborts the
call; the expression fails when some named predicate returns false on the
value. An empty expression (and the library's skip marker `-`) validates
nothing. The result is `true` when `Var` returns a non-nil error. -/
def Var {α : Type} (v : Validator α) (field : α) (tag : String) : Except Panic Bool :=
  if tag = "" ∨ tag = "-" then .ok false
  else
    match resolveTags v (Split tag) with
    | .error p => .error p
    | .ok fns => runValidations field fns

/-- The helper `getField`: the value of a field by name. -/
def getField {α : Type} (val : Arg α) (name : String) : Except Panic (Option (Value α)) :=
  val.FieldByName name

/-- The helper `getJSONTag`: the json tag value for a given field. -/
def getJSONTag (t : RType) (fieldName : String) : Except Panic String := do
  let elem ← t.Elem
  let field ← elem.FieldByName fieldName
  match field with
  | none => pure ""
  | some field =>
    let tag := field.Tag.Get "json"
    if tag = "" ∨ tag = "-" then pure ""
    else pure ((Split tag).headD "")

/-- The body of the `for _, rule := range rules` loop of `ValidateStruct`,
with the errors collected so far. -/
def validateRules {α : Type} (v : Validator α) (val : Arg α) :
    List Rule → Errors → Except Panic Errors
  | [], errs => .ok errs
  | rule :: rest, errs => do
    let fieldVal ← getField val rule.Field
    match fieldVal with
    | none => validateRules v val rest errs
    | some fieldVal =>
      let x ← fieldVal.Interface
      let failed ← Var v x rule.Tag
      if failed then
        let jsonTag ← getJSONTag val.TypeOf rule.Field
        let fieldName := if jsonTag ≠ "" then jsonTag else rule.Field
        validateRules v val rest (errs ++ [{ Field := fieldName, Message := rule.Message }])
      else validateRules v val rest errs

/-- The method `Validator.ValidateStruct`. -/
def ValidateStruct {α : Type} (v : Validator α) (s : Arg α) (rules : List Rule) :
    Except Panic Errors :=
  validateRules v s rules []

/-- The method `Errors.SetMessage`. The range loop binds `err` to a copy of
each element, so the assignment to `err.Message` changes the copy; the state
threaded through the loop is the slice `*e`, which no iteration writes. -/
def SetMessage (e : Errors) (field message : String) : Errors :=
  e.foldl
    (fun (slice : Errors) (err : Error) =>
      let _err : Error := if err.Field = field then { err with Message := message } else err
      slice)
    e

/-- The registration errors of the library: `function Key cannot be empty` and
`function cannot be empty`. -/
inductive RegistrationError where
  | emptyKey
  | emptyFunction
  deriving DecidableEq, Repr

/-- Modelled from the spec: the call `RegisterValidation(tag, fn)` of the
go-playground validator, whose source is not part of the package. It installs
or replaces the predicate under the name; the name must be non-empty, and the
registration fails when the function is nil. The result is the validator after
the call and the error returned. -/
def RegisterValidation {α : Type} (v : Validator α) (tag : String) (fn : Option (Func α)) :
    Validator α × Option RegistrationError :=
  if tag = "" then (v, some .emptyKey)
  else
    match fn with
    | none => (v, some .emptyFunction)
    | some f =>
      ({ validations := (tag, f) :: v.validations.filter (fun e => e.1 != tag) }, none)

/-- The method `Validator.Register`: it hands the library a function literal
that calls `fn.Validate`; the literal is never nil, and calling it with `fn`
the nil interface panics. -/
def Register {α : Type} (v : Validator α) (tag : String) (fn : ValidatorFunc α) :
    Validator α × Option RegistrationError :=
  RegisterValidation v tag
    (some (fun fl =>
      match fn with
      | none => .error .nilDereference
      | some f => f fl))

/-- The method `Error.Error`. -/
def Error.Error (e : Error) : String :=
  e.Message

/-- The strings joined by single spaces. -/
def joinSpace : List String → String
  | [] => ""
  | [a] => a
  | a :: b :: rest => a ++ " " ++ joinSpace (b :: rest)

/-- The method `Errors.Error`: `fmt.Sprintf("validation errors: %v", []Error(e))`.
The verb `%v` prints a slice as its elements between brackets, separated by
single spaces, and prints an element that implements `error` as the result of
its `Error` method. -/
def Errors.Error (e : Errors) : String :=
  "validation errors: " ++ ("[" ++ (joinSpace (e.map Error.Error) ++ "]"))

/-! ## The state the library keeps between calls -/

/-- The validator together with the tag cache of the wrapped
`validator.Validate`: the expressions evaluated so far, each with the
validation functions its names resolved to when it was first evaluated. -/
structure Cached (α : Type) where
  validator : Validator α
  tagCache : List (String × List (Func α))

/-- Modelled from the spec, with the cache of the library, which the spec
leaves out: the library's `fetchCacheTag`. An expression found in the cache
yields the functions stored with it; any other expression is resolved in the
registry and, when every name is registered, stored in the cache. -/
def fetchCacheTag {α : Type} (c : Cached α) (tag : String) :
    Except Panic (List (Func α)) × Cached α :=
  match c.tagCache.lookup tag with
  | some fns => (.ok fns, c)
  | none =>
    match resolveTags c.validator (Split tag) with
    | .error p => (.error p, c)
    | .ok fns => (.ok fns, { c with tagCache := (tag, fns) :: c.tagCache })

/-- Modelled from the spec, with the cache of the library: the call
`v.validate.Var(field, tag)` as `Var` above, on the validator with its cache;
the result is the outcome and the validator after the call. -/
def VarCached {α : Type} (c : Cached α) (field : α) (tag : String) :
    Except Panic Bool × Cached α :=
  if tag = "" ∨ tag = "-" then (.ok false, c)
  else
    match fetchCacheTag c tag with
    | (.error p, c1) => (.error p, c1)
    | (.ok fns, c1) => (runValidations field fns, c1)

/-- The method `Validator.Register` on the validator with its cache. The
library refuses, with a panic, a non-empty name of its table of restricted
tags and characters; the table is not part of the package and is the parameter
`restricted`. For any other name the registration is `Register` above on the
registry; it leaves the cache as it is. The result is the validator after the
call and the error returned. -/
def RegisterCached {α : Type} (restricted : String → Bool) (c : Cached α) (tag : String)
    (fn : ValidatorFunc α) : Except Panic (Cached α × Option RegistrationError) :=
  if tag ≠ "" ∧ restricted tag = true then .error (.restrictedTag tag)
  else
    .ok ({ c with validator := (Register c.validator tag fn).1 },
      (Register c.validator tag fn).2)

/-- The loop of `ValidateStruct` as `validateRules` above, with two things
made explicit: the validator with its cache, which every call of `Var` may
write, and the type `t` handed to `getJSONTag`, which in `ValidateStruct` is
`val.Type()`. The result is the outcome and the validator after the loop. -/
def validateRulesIn {α : Type} (val : Arg α) (t : RType) :
    List Rule → Cached α → Errors → Except Panic Errors × Cached α
  | [], c, errs => (.ok errs, c)
  | rule :: rest, c, errs =>
    match getField val rule.Field with
    | .error p => (.error p, c)
    | .ok none => validateRulesIn val t rest c errs
    | .ok (some fieldVal) =>
      match fieldVal.Interface with
      | .error p => (.error p, c)
      | .ok x =>
        match VarCached c x rule.Tag with
        | (.error p, c1) => (.error p, c1)
        | (.ok failed, c1) =>
          if failed then
            match getJSONTag t rule.Field with
            | .error p => (.error p, c1)
            | .ok jsonTag =>
              validateRulesIn val t rest c1
                (errs ++ [{ Field := if jsonTag ≠ "" then jsonTag else rule.Field,
                            Message := rule.Message }])
          else validateRulesIn val t rest c1 errs

/-- The method `Validator.ValidateStruct` on the validator with its cache: the
outcome of the call and the validator after it. -/
def ValidateStructCached {α : Type} (c : Cached α) (s : Arg α) (rules : List Rule) :
    Except Panic Errors × Cached α :=
  validateRulesIn s s.TypeOf rules c []

/-! ## Notions used to state the properties -/

/-- The predicate names of an expression: none for the empty expression and
for the skip marker, otherwise the comma-separated pieces. -/
def tagNames (tag : String) : List String :=
  if tag = "" ∨ tag = "-" then [] else Split tag

/-- The predicate registered under `name` exists and returns true on `x`. -/
def Holds {α : Type} (v : Validator α) (name : String) (x : α) : Prop :=
  ∃ fn, v.validations.lookup name = some fn ∧ fn x = .ok true

/-- Every name of the list is registered with a predicate that returns true on
`x`, as a computation. -/
def holdsAll {α : Type} (v : Validator α) (x : α) (names : List String) : Bool :=
  names.all (fun name =>
    match v.validations.lookup name with
    | some fn =>
      match fn x with
      | .ok true => true
      | _ => false
    | none => false)

/-- The rule passes on a struct value, as the specification words it: its
field exists, and every predicate its expression names is registered and
returns true on the field's value. -/
def PassesAsStated {α : Type} (v : Validator α) (fields : List (StructField × α))
    (rule : Rule) : Prop :=
  ∃ f, fieldNamed fields rule.Field = some f ∧
    ∀ name ∈ tagNames rule.Tag, Holds v name f.2

/-- The rule passes on a struct value and its field is exported. -/
def Passes {α : Type} (v : Validator α) (fields : List (StructField × α))
    (rule : Rule) : Prop :=
  ∃ f, fieldNamed fields rule.Field = some f ∧ f.1.PkgPath = "" ∧
    ∀ name ∈ tagNames rule.Tag, Holds v name f.2

/-- The declared fields of the record behind the argument, with their values. -/
def Arg.fields {α : Type} : Arg α → List (StructField × α)
  | .struct fields => fields
  | .ptr fields => fields

/-- The record behind the argument declares a field called `name`. -/
def Arg.HasField {α : Type} (s : Arg α) (name : String) : Prop :=
  ∃ f, fieldNamed s.fields name = some f

/-- The character strings occur in `s` one after the other, in the order of
the list, without overlap. -/
def OccurInOrder : List (List Char) → List Char → Prop
  | [], _ => True
  | m :: ms, s => ∃ a b, s = a ++ (m ++ b) ∧ OccurInOrder ms b

/-- The expression passes on the value: every predicate it names is registered
and returns true on the value. -/
def ExprPasses {α : Type} (v : Validator α) (tag : String) (x : α) : Prop :=
  ∀ name ∈ tagNames tag, Holds v name x

/-- What an expression resolves to on the validator with its cache: the
functions stored with it in the cache, or else what the registry gives. -/
def effective {α : Type} (c : Cached α) (tag : String) : Except Panic (List (Func α)) :=
  match c.tagCache.lookup tag with
  | some fns => .ok fns
  | none => resolveTags c.validator (Split tag)

/-- The portion of a json annotation before its first comma (the whole
annotation when it has no comma). -/
def beforeComma (tag : String) : String :=
  String.mk (tag.data.takeWhile (fun c => c != ','))

/-! ## The fixtures of `valitation_test.go` -/

/-- The custom validation function the tests register under `is-even`: false
on the empty string, otherwise whether the length of the string is even. -/
def isEven (value : String) : Bool :=
  if value.utf8ByteSize = 0 then false
  else value.utf8ByteSize % 2 == 0

/-- Modelled from the spec: the built-in predicate `required` of the external
predicate library, on strings: the string is not empty. -/
def isRequired (s : String) : Bool := s != ""

/-- Modelled from the spec: the built-in predicate `alpha` (alphabetic) of the
external predicate library: one or more letters. -/
def isAlpha (s : String) : Bool := s != "" && s.data.all Char.isAlpha

/-- Modelled from the spec: the built-in predicate `numeric` of the external
predicate library, on the digit strings the tests use: one or more digits. -/
def isNumeric (s : String) : Bool := s != "" && s.data.all Char.isDigit

/-- Modelled from the spec: the built-in predicate `email` (email-shaped) of
the external predicate library: one `@` between a non-empty local part and a
domain with a dot. -/
def isEmail (s : String) : Bool :=
  match splitChars '@' s.data with
  | [l, d] => !l.isEmpty && !d.isEmpty && d.contains '.'
  | _ => false

/-- The built-in predicates the test rules name. -/
def builtins : List (String × Func String) :=
  [("required", pureFunc isRequired), ("alpha", pureFunc isAlpha),
    ("numeric", pureFunc isNumeric), ("email", pureFunc isEmail)]

/-- The validator that `New()` returns, with the built-in predicates. -/
def newValidator : Validator String :=
  { validations := builtins }

/-- The validator of the tests: `New()` followed by the registration of
`is-even`. -/
def testValidator : Validator String :=
  (Register newValidator "is-even" (some (pureFunc isEven))).1

/-- The declared fields of the test type `User`. -/
def userFields : List StructField :=
  [ { Name := "Name", PkgPath := "", Tag := [("json", "name")] },
    { Name := "Email", PkgPath := "", Tag := [("json", "email")] },
    { Name := "Age", PkgPath := "", Tag := [("json", "age")] } ]

/-- A value of type `User`. -/
def User (name email age : String) : List (StructField × String) :=
  userFields.zip [name, email, age]

/-- The `validUser` of the tests. -/
def validUser : List (StructField × String) :=
  User "JohnDoe" "john.doe@example.com" "30"

/-- The `invalidUser` of the tests. -/
def invalidUser : List (StructField × String) :=
  User "John123" "invalid-email" "31"

/-- The `rules` of the tests. -/
def testRules : List Rule :=
  [ { Field := "Name", Tag := "required,alpha", Message := "Name must contain only letters" },
    { Field := "Email", Tag := "required,email",
      Message := "Email must be a valid email address" },
    { Field := "Age", Tag := "required,numeric,is-even",
      Message := "Age must be an even integer" } ]

/-- A record type with one unexported field `name`, holding `JohnDoe`. -/
def unexportedRecord : List (StructField × String) :=
  [({ Name := "name", PkgPath := "validation", Tag := [("json", "name")] }, "JohnDoe")]

/-- A record type with one exported field `Nick` that carries no json
annotation, holding `nick42`. -/
def untaggedRecord : List (StructField × String) :=
  [({ Name := "Nick", PkgPath := "", Tag := [] }, "nick42")]

/-- The validator of `New()` with its cache, before any call. -/
def newCached : Cached String :=
  { validator := newValidator, tagCache := [] }

/-- The validator of the tests with its cache, before any call. -/
def testCached : Cached String :=
  { validator := testValidator, tagCache := [] }

/-- The library's table of restricted tags and characters: the names it
refuses to register. The table is not part of the package; only the closed
examples below use it. -/
def restrictedTag (tag : String) : Bool :=
  ["dive", "keys", "endkeys", "structonly", "omitempty", "omitnil", "-", "0x2C", "0x7C",
    "nostructlevel", "required"].contains tag ||
  tag.data.any (fun ch => ".[],|=+()\x60~!@#$%^&*\\\"/?<>\x7b\x7d".data.contains ch)

/-- The validator after `New()` and a call of `ValidateStruct` on the
`validUser` with one rule on `Name` whose expression is `alpha`. -/
def alphaEvaluated : Cached String :=
  (ValidateStructCached newCached (.struct validUser)
    [{ Field := "Name", Tag := "alpha", Message := "Name must contain only letters" }]).2

/-- The validator `alphaEvaluated` after `Register("alpha", numeric)`. -/
def alphaRegistered : Cached String :=
  { alphaEvaluated with
    validator := (Register alphaEvaluated.validator "alpha" (some (pureFunc isNumeric))).1 }

/-- The validator `alphaRegistered` after `Register("alpha", is-even)`. -/
def alphaReregistered : Cached String :=
  { alphaRegistered with
    validator := (Register alphaRegistered.validator "alpha" (some (pureFunc isEven))).1 }

/-- The validator after `New()` and `Register("is-even", alpha)`. -/
def isEvenRegistered : Cached String :=
  { newCached with
    validator := (Register newCached.validator "is-even" (some (pureFunc isAlpha))).1 }

/-- The validator `isEvenRegistered` after a call of `ValidateStruct` on the
`validUser` with one rule on `Name` whose expression is `is-even`. -/
def isEvenEvaluated : Cached String :=
  (ValidateStructCached isEvenRegistered (.struct validUser)
    [{ Field := "Name", Tag := "is-even", Message := "Name must contain only letters" }]).2

/-- The validator `isEvenEvaluated` after `Register("is-even", is-even)` with
the predicate of the tests. -/
def isEvenReregistered : Cached String :=
  { isEvenEvaluated with
    validator := (Register isEvenEvaluated.validator "is-even" (some (pureFunc isEven))).1 }

/-! ## Strings: the first piece of a split -/

theorem splitChars_ne_nil (c : Char) (l : List Char) : splitChars c l ≠ [] := by
  cases l with
  | nil => simp [splitChars]
  | cons x xs =>
    simp only [splitChars]
    split
    · simp
    · split <;> simp

theorem splitChars_headD (c : Char) (l : List Char) :
    (splitChars c l).headD [] = l.takeWhile (fun x => x != c) := by
  induction l with
  | nil => simp [splitChars]
  | cons x xs ih =>
    simp only [splitChars]
    by_cases hx : x = c
    · simp [hx]
    · simp only [hx, if_false]
      have hne : (x != c) = true := by simpa using hx
      rw [List.takeWhile_cons, hne]
      simp only [if_true]
      cases hs : splitChars c xs with
      | nil => exact absurd hs (splitChars_ne_nil c xs)
      | cons h t =>
        rw [hs] at ih
        simp only [List.headD_cons] at ih
        simp [ih]

theorem Split_headD (tag : String) : (Split tag).headD "" = beforeComma tag := by
  unfold Split beforeComma
  rw [← splitChars_headD]
  cases splitChars ',' tag.data <;> rfl

/-! ## The lookup of the external name -/

theorem getJSONTag_struct (fields : List StructField) (name : String) :
    getJSONTag (.struct fields) name = .error .elemOfInvalidType := rfl

theorem getJSONTag_ptr_struct (fields : List StructField) (name : String) :
    getJSONTag (.ptr (.struct fields)) name =
      .ok (match fields.find? (fun f => f.Name == name) with
        | none => ""
        | some field =>
          if field.Tag.Get "json" = "" ∨ field.Tag.Get "json" = "-" then ""
          else beforeComma (field.Tag.Get "json")) := by
  simp only [getJSONTag, RType.Elem, RType.FieldByName, bind, Except.bind, pure, Except.pure]
  cases fields.find? (fun f => f.Name == name) with
  | none => rfl
  | some field =>
    simp only []
    split
    · rfl
    · rw [Split_headD]

/-! ## The expression evaluator -/

theorem resolveTags_of_registered {α : Type} (v : Validator α) (x : α) (names : List String)
    (h : ∀ name ∈ names, Holds v name x) :
    ∃ fns, resolveTags v names = .ok fns ∧ runValidations x fns = .ok false := by
  induction names with
  | nil => exact ⟨[], rfl, rfl⟩
  | cons name rest ih =>
    obtain ⟨fn, hfn, hx⟩ := h name (List.mem_cons_self _ _)
    obtain ⟨fns, hfns, hall⟩ := ih (fun n hn => h n (List.mem_cons_of_mem _ hn))
    refine ⟨fn :: fns, ?_, ?_⟩
    · simp [resolveTags, hfn, hfns]
    · simp only [runValidations, hx]
      exact hall

theorem resolveTags_of_unregistered {α : Type} (v : Validator α) (names : List String)
    (h : ∃ name ∈ names, v.validations.lookup name = none) :
    ∃ p, resolveTags v names = .error p := by
  induction names with
  | nil =>
    obtain ⟨name, hmem, _⟩ := h
    exact absurd hmem (List.not_mem_nil _)
  | cons name rest ih =>
    cases hl : v.validations.lookup name with
    | none => exact ⟨.undefinedValidation name, by simp [resolveTags, hl]⟩
    | some fn =>
      obtain ⟨n, hmem, hn⟩ := h
      have hrest : ∃ m ∈ rest, v.validations.lookup m = none := by
        rcases List.mem_cons.mp hmem with heq | hin
        · rw [heq, hl] at hn
          exact absurd hn (by simp)
        · exact ⟨n, hin, hn⟩
      obtain ⟨p, hp⟩ := ih hrest
      exact ⟨p, by simp [resolveTags, hl, hp]⟩

theorem Var_of_holds {α : Type} (v : Validator α) (x : α) (tag : String)
    (h : ∀ name ∈ tagNames tag, Holds v name x) : Var v x tag = .ok false := by
  unfold Var
  by_cases ht : tag = "" ∨ tag = "-"
  · simp [ht]
  · simp only [ht, if_false]
    have hn : tagNames tag = Split tag := by simp [tagNames, ht]
    rw [hn] at h
    obtain ⟨fns, hfns, hall⟩ := resolveTags_of_registered v x (Split tag) h
    simp [hfns, hall]

theorem Var_of_unregistered {α : Type} (v : Validator α) (x : α) (tag : String)
    (h : ∃ name ∈ tagNames tag, v.validations.lookup name = none) :
    ∃ p, Var v x tag = .error p := by
  unfold Var
  by_cases ht : tag = "" ∨ tag = "-"
  · obtain ⟨name, hmem, _⟩ := h
    simp [tagNames, ht] at hmem
  · simp only [ht, if_false]
    have hn : tagNames tag = Split tag := by simp [tagNames, ht]
    rw [hn] at h
    obtain ⟨p, hp⟩ := resolveTags_of_unregistered v (Split tag) h
    exact ⟨p, by simp [hp]⟩

/-! ## The rule loop -/

theorem validateRules_skip {α : Type} (v : Validator α) (val : Arg α) (rule : Rule)
    (h : getField val rule.Field = .ok none) (rest : List Rule) (errs : Errors) :
    validateRules v val (rule :: rest) errs = validateRules v val rest errs := by
  simp [validateRules, h, bind, Except.bind]

theorem validateRules_pass {α : Type} (v : Validator α) (fields : List (StructField × α))
    (rule : Rule) (h : Passes v fields rule) (rest : List Rule) (errs : Errors) :
    validateRules v (.struct fields) (rule :: rest) errs =
      validateRules v (.struct fields) rest errs := by
  obtain ⟨f, hf, hexp, hall⟩ := h
  have hv := Var_of_holds v f.2 rule.Tag hall
  simp [validateRules, getField, Arg.FieldByName, hf, Value.Interface, hexp, hv, bind,
    Except.bind]

theorem validateRules_remove {α : Type} (v : Validator α) (val : Arg α) (rule : Rule)
    (h : ∀ rest errs, validateRules v val (rule :: rest) errs = validateRules v val rest errs)
    (r1 r2 : List Rule) (errs : Errors) :
    validateRules v val (r1 ++ rule :: r2) errs = validateRules v val (r1 ++ r2) errs := by
  induction r1 generalizing errs with
  | nil => exact h r2 errs
  | cons a r1 ih => simp only [List.cons_append, validateRules, List.append_eq, ih]

theorem validateRules_ok_suffix {α : Type} (v : Validator α) (val : Arg α)
    (r1 r2 : List Rule) (errs out : Errors)
    (h : validateRules v val (r1 ++ r2) errs = .ok out) :
    ∃ errs1, validateRules v val r2 errs1 = .ok out := by
  induction r1 generalizing errs with
  | nil => exact ⟨errs, h⟩
  | cons a r1 ih =>
    simp only [List.cons_append, validateRules, bind, Except.bind] at h
    split at h
    · exact absurd h (by simp)
    · rename_i fieldVal _
      cases fieldVal with
      | none => exact ih _ h
      | some fv =>
        simp only [] at h
        split at h
        · exact absurd h (by simp)
        · split at h
          · exact absurd h (by simp)
          · split at h
            · split at h
              · exact absurd h (by simp)
              · exact ih _ h
            · exact ih _ h

/-- A returned report is the accumulator the loop started from: no iteration
both appends an error and returns. -/
theorem validateRules_ok {α : Type} (v : Validator α) (val : Arg α)
    (rules : List Rule) (errs out : Errors)
    (h : validateRules v val rules errs = .ok out) : out = errs := by
  induction rules generalizing errs with
  | nil =>
    simp only [validateRules] at h
    exact (Except.ok.inj h).symm
  | cons a rest ih =>
    cases val with
    | ptr fields => simp [validateRules, getField, Arg.FieldByName, bind, Except.bind] at h
    | struct fields =>
      simp only [validateRules, bind, Except.bind, Arg.TypeOf, getJSONTag_struct] at h
      split at h
      · exact absurd h (by simp)
      · rename_i fieldVal _
        cases fieldVal with
        | none => exact ih _ h
        | some fv =>
          simp only [] at h
          split at h
          · exact absurd h (by simp)
          · split at h
            · exact absurd h (by simp)
            · split at h
              · exact absurd h (by simp)
              · exact ih _ h

/-- Whatever the inputs, a report that `ValidateStruct` returns is empty. -/
theorem ValidateStruct_ok_nil {α : Type} (v : Validator α) (s : Arg α) (rules : List Rule)
    (out : Errors) (h : ValidateStruct v s rules = .ok out) : out = [] :=
  validateRules_ok v s rules [] out h

theorem SetMessage_eq (e : Errors) (field message : String) :
    SetMessage e field message = e := by
  have key : ∀ (l slice : Errors),
      l.foldl
        (fun (slice : Errors) (err : Error) =>
          let _err : Error :=
            if err.Field = field then { err with Message := message } else err
          slice)
        slice = slice := by
    intro l
    induction l with
    | nil => intro slice; rfl
    | cons a rest ih => intro slice; exact ih slice
  exact key e e

theorem holds_of_holdsAll {α : Type} (v : Validator α) (x : α) (names : List String)
    (h : holdsAll v x names = true) : ∀ name ∈ names, Holds v name x := by
  intro name hmem
  have hn := List.all_eq_true.mp h name hmem
  cases hl : v.validations.lookup name with
  | none => simp [hl] at hn
  | some fn =>
    simp only [hl] at hn
    refine ⟨fn, hl, ?_⟩
    cases hfx : fn x with
    | error p => simp [hfx] at hn
    | ok b =>
      cases b with
      | false => simp [hfx] at hn
      | true => rfl

theorem testRules_pass_validUser : ∀ r ∈ testRules, Passes testValidator validUser r := by
  intro r hr
  simp only [testRules, List.mem_cons, List.mem_singleton, List.not_mem_nil, or_false] at hr
  rcases hr with rfl | rfl | rfl
  · exact ⟨_, rfl, rfl, holds_of_holdsAll _ _ _ rfl⟩
  · exact ⟨_, rfl, rfl, holds_of_holdsAll _ _ _ rfl⟩
  · exact ⟨_, rfl, rfl, holds_of_holdsAll _ _ _ rfl⟩

theorem validateRules_unknown {α : Type} (v : Validator α) (s : Arg α) (rule : Rule)
    (hfield : s.HasField rule.Field)
    (hunk : ∃ name ∈ tagNames rule.Tag, v.validations.lookup name = none)
    (rest : List Rule) (errs out : Errors) :
    validateRules v s (rule :: rest) errs ≠ .ok out := by
  cases s with
  | ptr fields => simp [validateRules, getField, Arg.FieldByName, bind, Except.bind]
  | struct fields =>
    obtain ⟨f, hf⟩ := hfield
    simp only [Arg.fields] at hf
    by_cases hro : f.1.PkgPath = ""
    · obtain ⟨p, hp⟩ := Var_of_unregistered v f.2 rule.Tag hunk
      simp [validateRules, getField, Arg.FieldByName, hf, Value.Interface, hro, hp, bind,
        Except.bind]
    · simp [validateRules, getField, Arg.FieldByName, hf, Value.Interface, hro, bind,
        Except.bind]

/-- The loop over `r1 ++ r2` is the loop over `r1` followed by the loop over
`r2` from the errors collected so far. -/
theorem validateRules_append {α : Type} (v : Validator α) (val : Arg α)
    (r1 r2 : List Rule) (errs : Errors) :
    validateRules v val (r1 ++ r2) errs =
      (validateRules v val r1 errs).bind (fun mid => validateRules v val r2 mid) := by
  induction r1 generalizing errs with
  | nil => rfl
  | cons a r1 ih =>
    simp only [List.cons_append, validateRules, List.append_eq, ih, bind]
    cases getField val a.Field with
    | error p => rfl
    | ok fieldVal =>
      cases fieldVal with
      | none => rfl
      | some fv =>
        simp only [Except.bind]
        cases fv.Interface with
        | error p => rfl
        | ok x =>
          simp only []
          cases Var v x a.Tag with
          | error p => rfl
          | ok failed =>
            cases failed with
            | false => rfl
            | true =>
              simp only [if_true]
              cases getJSONTag val.TypeOf a.Field with
              | error p => rfl
              | ok jsonTag => rfl

/-- The loop started from collected errors returns them in front of what the
loop started from nothing returns. -/
theorem validateRules_acc {α : Type} (v : Validator α) (val : Arg α)
    (rules : List Rule) (errs : Errors) :
    validateRules v val rules errs =
      (validateRules v val rules []).map (fun out => errs ++ out) := by
  induction rules generalizing errs with
  | nil => simp [validateRules, Except.map]
  | cons a rest ih =>
    simp only [validateRules, bind]
    cases getField val a.Field with
    | error p => rfl
    | ok fieldVal =>
      cases fieldVal with
      | none => exact ih errs
      | some fv =>
        simp only [Except.bind]
        cases fv.Interface with
        | error p => rfl
        | ok x =>
          simp only []
          cases Var v x a.Tag with
          | error p => rfl
          | ok failed =>
            cases failed with
            | false => exact ih errs
            | true =>
              simp only [if_true]
              cases getJSONTag val.TypeOf a.Field with
              | error p => rfl
              | ok jsonTag =>
                simp only []
                rw [ih (errs ++ _), ih ([] ++ _)]
                cases validateRules v val rest [] with
                | error p => rfl
                | ok out => simp [Except.map]

/-- The call on `r1 ++ r2` does what the call on `r1` followed by the call
on `r2` does, the two reports concatenated; a panic of either is the panic of
the whole. -/
theorem ValidateStruct_append {α : Type} (v : Validator α) (s : Arg α) (r1 r2 : List Rule) :
    ValidateStruct v s (r1 ++ r2) =
      (ValidateStruct v s r1).bind
        (fun out1 => (ValidateStruct v s r2).map (fun out2 => out1 ++ out2)) := by
  unfold ValidateStruct
  rw [validateRules_append]
  cases validateRules v s r1 [] with
  | error p => rfl
  | ok out1 =>
    simp only [Except.bind]
    exact validateRules_acc v s r2 out1

theorem holds_of_run {α : Type} (v : Validator α) (x : α) (names : List String)
    (fns : List (Func α)) (hres : resolveTags v names = .ok fns)
    (hrun : runValidations x fns = .ok false) : ∀ name ∈ names, Holds v name x := by
  induction names generalizing fns with
  | nil => intro name hmem; exact absurd hmem (List.not_mem_nil _)
  | cons n rest ih =>
    simp only [resolveTags] at hres
    cases hl : v.validations.lookup n with
    | none => rw [hl] at hres; simp at hres
    | some fn =>
      rw [hl] at hres
      simp only [] at hres
      cases hr : resolveTags v rest with
      | error p => rw [hr] at hres; simp at hres
      | ok fns1 =>
        rw [hr] at hres
        simp only [] at hres
        have hfns := (Except.ok.inj hres).symm
        subst hfns
        simp only [runValidations] at hrun
        cases hfx : fn x with
        | error p => rw [hfx] at hrun; simp at hrun
        | ok b =>
          rw [hfx] at hrun
          cases b with
          | false => simp at hrun
          | true =>
            simp only [] at hrun
            intro name hmem
            rcases List.mem_cons.mp hmem with heq | hin
            · subst heq
              exact ⟨fn, hl, hfx⟩
            · exact ih fns1 hr hrun name hin

theorem exprPasses_of_Var {α : Type} (v : Validator α) (x : α) (tag : String)
    (h : Var v x tag = .ok false) : ExprPasses v tag x := by
  unfold ExprPasses
  unfold Var at h
  by_cases ht : tag = "" ∨ tag = "-"
  · intro name hmem
    simp [tagNames, ht] at hmem
  · simp only [ht, if_false] at h
    have hn : tagNames tag = Split tag := by simp [tagNames, ht]
    rw [hn]
    cases hr : resolveTags v (Split tag) with
    | error p => rw [hr] at h; simp at h
    | ok fns =>
      rw [hr] at h
      exact holds_of_run v x (Split tag) fns hr h

/-- A loop on a struct value that returns has found the field of its first
rule, when the struct has it, exported and passing the expression. -/
theorem validateRules_cons_ok {α : Type} (v : Validator α) (fields : List (StructField × α))
    (rule : Rule) (rest : List Rule) (errs out : Errors) (f : StructField × α)
    (h : validateRules v (.struct fields) (rule :: rest) errs = .ok out)
    (hf : fieldNamed fields rule.Field = some f) :
    f.1.PkgPath = "" ∧ Var v f.2 rule.Tag = .ok false := by
  simp only [validateRules, getField, Arg.FieldByName, hf, Option.map, bind, Except.bind,
    Value.Interface, Arg.TypeOf, getJSONTag_struct] at h
  by_cases hro : f.1.PkgPath = ""
  · refine ⟨hro, ?_⟩
    simp only [hro, bne_self_eq_false, Bool.false_eq_true, if_false] at h
    cases hv : Var v f.2 rule.Tag with
    | error p => rw [hv] at h; simp at h
    | ok failed =>
      rw [hv] at h
      cases failed with
      | false => rfl
      | true => simp at h
  · simp [hro] at h

theorem fieldNamed_mem {α : Type} (fields : List (StructField × α)) (name : String)
    (f : StructField × α) (h : fieldNamed fields name = some f) : f ∈ fields :=
  List.mem_of_find?_eq_some h

theorem validUser_exported : ∀ f ∈ validUser, f.1.PkgPath = "" := by
  decide

theorem lookup_filter_ne {α : Type} (l : List (String × Func α)) (m n : String)
    (h : m ≠ n) : (l.filter (fun e => e.1 != n)).lookup m = l.lookup m := by
  induction l with
  | nil => rfl
  | cons a rest ih =>
    obtain ⟨k, fn⟩ := a
    by_cases hk : k = n
    · subst hk
      have hmk : (m == k) = false := by simpa using h
      simp [List.filter, List.lookup, hmk, ih]
    · have hkn : (k != n) = true := by simpa using hk
      simp only [List.filter, hkn, List.lookup]
      cases hmk : (m == k) with
      | true => rfl
      | false => exact ih

theorem Register_lookup_other {α : Type} (v : Validator α) (n m : String)
    (fn : ValidatorFunc α) (h : m ≠ n) :
    (Register v n fn).1.validations.lookup m = v.validations.lookup m := by
  unfold Register RegisterValidation
  by_cases hn : n = ""
  · simp [hn]
  · have hmn : (m == n) = false := by simpa using h
    simp only [hn, if_false, List.lookup, hmn]
    exact lookup_filter_ne v.validations m n h

theorem Register_lookup_self {α : Type} (v : Validator α) (n : String) (p : Func α)
    (hn : n ≠ "") : (Register v n (some p)).1.validations.lookup n = some p := by
  unfold Register RegisterValidation
  simp [hn, List.lookup]

theorem OccurInOrder_prepend (ms : List (List Char)) (p t : List Char)
    (h : OccurInOrder ms t) : OccurInOrder ms (p ++ t) := by
  cases ms with
  | nil => trivial
  | cons m rest =>
    obtain ⟨a, b, hab, hrest⟩ := h
    exact ⟨p ++ a, b, by rw [hab, List.append_assoc], hrest⟩

theorem OccurInOrder_joinSpace (l : List String) (t : List Char) :
    OccurInOrder (l.map String.data) ((joinSpace l).data ++ t) := by
  induction l generalizing t with
  | nil => trivial
  | cons a rest ih =>
    cases rest with
    | nil => exact ⟨[], t, rfl, trivial⟩
    | cons b rest2 =>
      refine ⟨[], " ".data ++ ((joinSpace (b :: rest2)).data ++ t), ?_, ?_⟩
      · simp [joinSpace, String.data_append, List.append_assoc]
      · exact OccurInOrder_prepend _ _ _ (ih t)

theorem beforeComma_initial (ann : String) : (beforeComma ann).data <+: ann.data :=
  List.takeWhile_prefix _

theorem beforeComma_no_comma (ann : String) : ',' ∉ (beforeComma ann).data := by
  intro hmem
  have h := List.mem_takeWhile_imp hmem
  simp at h

theorem beforeComma_dash (ann : String) (h : beforeComma ann = "-") (hne : ann ≠ "-") :
    "-,".data <+: ann.data := by
  have hd : ann.data.takeWhile (fun c => c != ',') = ['-'] := by
    have := congrArg String.data h
    simpa [beforeComma] using this
  obtain ⟨l⟩ := ann
  simp only at hd
  cases l with
  | nil => simp at hd
  | cons c rest =>
    by_cases hc : c = ','
    · subst hc
      simp at hd
    · have hcb : (c != ',') = true := by simpa using hc
      rw [List.takeWhile_cons, hcb] at hd
      simp only [if_true, List.cons.injEq] at hd
      obtain ⟨hc1, hrest⟩ := hd
      subst hc1
      cases rest with
      | nil => exact absurd rfl hne
      | cons d r =>
        by_cases hdc : d = ','
        · subst hdc
          exact ⟨r, rfl⟩
        · have hdb : (d != ',') = true := by simpa using hdc
          rw [List.takeWhile_cons, hdb] at hrest
          simp at hrest

/-! ## The cache of the library -/

theorem fetchCacheTag_fst {α : Type} (c : Cached α) (tag : String) :
    (fetchCacheTag c tag).1 = effective c tag := by
  unfold fetchCacheTag effective
  cases c.tagCache.lookup tag with
  | some fns => rfl
  | none =>
    simp only []
    cases resolveTags c.validator (Split tag) with
    | error p => rfl
    | ok fns => rfl

/-- Looking an expression up, and storing it, changes what no expression
resolves to. -/
theorem fetchCacheTag_effective {α : Type} (c : Cached α) (tag other : String) :
    effective (fetchCacheTag c tag).2 other = effective c other := by
  unfold fetchCacheTag
  cases hl : c.tagCache.lookup tag with
  | some fns => rfl
  | none =>
    simp only []
    cases hr : resolveTags c.validator (Split tag) with
    | error p => rfl
    | ok fns =>
      simp only [effective, List.lookup]
      by_cases ho : other = tag
      · subst ho
        simp [hl, hr]
      · have hb : (other == tag) = false := by simpa using ho
        simp [hb]

theorem VarCached_fst {α : Type} (c : Cached α) (x : α) (tag : String) :
    (VarCached c x tag).1 =
      if tag = "" ∨ tag = "-" then .ok false
      else
        match effective c tag with
        | .error p => .error p
        | .ok fns => runValidations x fns := by
  unfold VarCached
  by_cases ht : tag = "" ∨ tag = "-"
  · simp [ht]
  · simp only [ht, if_false]
    rw [← fetchCacheTag_fst]
    rcases fetchCacheTag c tag with ⟨r, c1⟩
    cases r <;> rfl

theorem VarCached_effective {α : Type} (c : Cached α) (x : α) (tag other : String) :
    effective (VarCached c x tag).2 other = effective c other := by
  unfold VarCached
  by_cases ht : tag = "" ∨ tag = "-"
  · simp [ht]
  · simp only [ht, if_false]
    have h := fetchCacheTag_effective c tag other
    rcases hf : fetchCacheTag c tag with ⟨r, c1⟩
    rw [hf] at h
    cases r <;> exact h

theorem VarCached_congr {α : Type} (c1 c2 : Cached α) (x : α) (tag : String)
    (h : ∀ other, effective c1 other = effective c2 other) :
    (VarCached c1 x tag).1 = (VarCached c2 x tag).1 := by
  rw [VarCached_fst, VarCached_fst, h tag]

/-- On a validator whose cache is empty the call of `Var` has the outcome
that `Var` on the registry has. -/
theorem VarCached_fresh {α : Type} (v : Validator α) (x : α) (tag : String) :
    (VarCached { validator := v, tagCache := [] } x tag).1 = Var v x tag := by
  rw [VarCached_fst]
  rfl

/-- The loop leaves what every expression resolves to as it was. -/
theorem validateRulesIn_effective {α : Type} (val : Arg α) (t : RType) (rules : List Rule)
    (c : Cached α) (errs : Errors) (other : String) :
    effective (validateRulesIn val t rules c errs).2 other = effective c other := by
  induction rules generalizing c errs with
  | nil => rfl
  | cons rule rest ih =>
    simp only [validateRulesIn]
    cases getField val rule.Field with
    | error p => rfl
    | ok fieldVal =>
      cases fieldVal with
      | none => exact ih c errs
      | some fv =>
        simp only []
        cases fv.Interface with
        | error p => rfl
        | ok x =>
          simp only []
          have hv := VarCached_effective c x rule.Tag other
          rcases hvc : VarCached c x rule.Tag with ⟨r, c1⟩
          rw [hvc] at hv
          simp only [] at hv
          cases r with
          | error p => exact hv
          | ok failed =>
            cases failed with
            | false =>
              simp only [Bool.false_eq_true, if_false]
              rw [ih c1 errs, hv]
            | true =>
              simp only [if_true]
              cases getJSONTag t rule.Field with
              | error p => exact hv
              | ok jsonTag =>
                simp only []
                rw [ih c1 _, hv]

/-- The outcome of the loop depends on the validator only through what the
expressions resolve to. -/
theorem validateRulesIn_congr {α : Type} (val : Arg α) (t : RType) (rules : List Rule)
    (c1 c2 : Cached α) (errs : Errors)
    (h : ∀ other, effective c1 other = effective c2 other) :
    (validateRulesIn val t rules c1 errs).1 = (validateRulesIn val t rules c2 errs).1 := by
  induction rules generalizing c1 c2 errs with
  | nil => rfl
  | cons rule rest ih =>
    simp only [validateRulesIn]
    cases getField val rule.Field with
    | error p => rfl
    | ok fieldVal =>
      cases fieldVal with
      | none => exact ih c1 c2 errs h
      | some fv =>
        simp only []
        cases fv.Interface with
        | error p => rfl
        | ok x =>
          simp only []
          have hfst := VarCached_congr c1 c2 x rule.Tag h
          have he1 := VarCached_effective c1 x rule.Tag
          have he2 := VarCached_effective c2 x rule.Tag
          rcases hv1 : VarCached c1 x rule.Tag with ⟨r1, d1⟩
          rcases hv2 : VarCached c2 x rule.Tag with ⟨r2, d2⟩
          rw [hv1] at hfst he1
          rw [hv2] at hfst he2
          simp only [] at hfst he1 he2
          subst hfst
          have hd : ∀ other, effective d1 other = effective d2 other := by
            intro other
            rw [he1 other, he2 other, h other]
          cases r1 with
          | error p => rfl
          | ok failed =>
            cases failed with
            | false =>
              simp only [Bool.false_eq_true, if_false]
              exact ih d1 d2 errs hd
            | true =>
              simp only [if_true]
              cases getJSONTag t rule.Field with
              | error p => rfl
              | ok jsonTag => exact ih d1 d2 _ hd

/-- On a validator whose cache is empty the loop run with the type of the
argument has the outcome of `validateRules`. -/
theorem validateRulesIn_fresh {α : Type} (v : Validator α) (val : Arg α) (rules : List Rule)
    (c : Cached α) (errs : Errors)
    (h : ∀ other, effective c other = resolveTags v (Split other)) :
    (validateRulesIn val val.TypeOf rules c errs).1 = validateRules v val rules errs := by
  induction rules generalizing c errs with
  | nil => rfl
  | cons rule rest ih =>
    simp only [validateRulesIn, validateRules, bind, Except.bind]
    cases getField val rule.Field with
    | error p => rfl
    | ok fieldVal =>
      cases fieldVal with
      | none => exact ih c errs h
      | some fv =>
        simp only []
        cases fv.Interface with
        | error p => rfl
        | ok x =>
          simp only []
          have hfst : (VarCached c x rule.Tag).1 = Var v x rule.Tag := by
            rw [VarCached_fst, h rule.Tag]
            rfl
          have he := VarCached_effective c x rule.Tag
          rcases hv1 : VarCached c x rule.Tag with ⟨r1, d1⟩
          rw [hv1] at hfst he
          simp only [] at hfst he
          rw [← hfst]
          have hd : ∀ other, effective d1 other = resolveTags v (Split other) := by
            intro other
            rw [he other, h other]
          cases r1 with
          | error p => rfl
          | ok failed =>
            cases failed with
            | false =>
              simp only [Bool.false_eq_true, if_false]
              exact ih d1 errs hd
            | true =>
              simp only [if_true]
              cases getJSONTag val.TypeOf rule.Field with
              | error p => rfl
              | ok jsonTag => exact ih d1 _ hd

/-- The pure `ValidateStruct` is the outcome of the call on a validator whose
cache is empty. -/
theorem ValidateStructCached_fresh {α : Type} (v : Validator α) (s : Arg α)
    (rules : List Rule) :
    (ValidateStructCached { validator := v, tagCache := [] } s rules).1 =
      ValidateStruct v s rules :=
  validateRulesIn_fresh v s rules _ [] (fun _ => rfl)

/-- For a record supplied as a struct value, a rule naming a field that the
struct does not have contributes nothing, whatever its expression and message:
the call returns what it returns with that rule removed. -/
theorem ValidateStruct_skip_missing_field {α : Type} (v : Validator α)
    (fields : List (StructField × α)) (rule : Rule) (r1 r2 : List Rule)
    (h : fieldNamed fields rule.Field = none) :
    ValidateStruct v (.struct fields) (r1 ++ rule :: r2) =
      ValidateStruct v (.struct fields) (r1 ++ r2) := by
  have hget : getField (Arg.struct fields) rule.Field = .ok none := by
    simp [getField, Arg.FieldByName, h]
  exact validateRules_remove v _ rule (validateRules_skip v _ rule hget) r1 r2 []

theorem getField_some {α : Type} (val : Arg α) (name : String) (fv : Value α)
    (h : getField val name = .ok (some fv)) : ∃ f, fieldNamed val.fields name = some f := by
  cases val with
  | ptr fields => simp [getField, Arg.FieldByName] at h
  | struct fields =>
    simp only [getField, Arg.FieldByName] at h
    cases hf : fieldNamed fields name with
    | none => rw [hf] at h; simp at h
    | some f => exact ⟨f, hf⟩

/-- The errors the loop has appended when it returns: at most one for each
rule, each with the message of a rule whose field exists, named by the rule's
field or by the non-empty string `getJSONTag` returned for it. -/
theorem validateRulesIn_report {α : Type} (val : Arg α) (t : RType) (rules : List Rule)
    (c : Cached α) (errs out : Errors)
    (h : (validateRulesIn val t rules c errs).1 = .ok out) :
    ∃ added : Errors, out = errs ++ added ∧ added.length ≤ rules.length ∧
      ∀ e ∈ added, ∃ rule ∈ rules, ∃ f, fieldNamed val.fields rule.Field = some f ∧
        e.Message = rule.Message ∧
        (e.Field = rule.Field ∨ (e.Field ≠ "" ∧ getJSONTag t rule.Field = .ok e.Field)) := by
  induction rules generalizing c errs with
  | nil =>
    simp only [validateRulesIn] at h
    refine ⟨[], ?_, Nat.le_refl _, fun e he => absurd he (List.not_mem_nil e)⟩
    rw [List.append_nil]
    exact (Except.ok.inj h).symm
  | cons rule rest ih =>
    have lift : ∀ (acc : Errors) (added : Errors),
        (out = acc ++ added ∧ added.length ≤ rest.length ∧
          ∀ e ∈ added, ∃ r ∈ rest, ∃ f, fieldNamed val.fields r.Field = some f ∧
            e.Message = r.Message ∧
            (e.Field = r.Field ∨ (e.Field ≠ "" ∧ getJSONTag t r.Field = .ok e.Field))) →
        (out = acc ++ added ∧ added.length ≤ (rule :: rest).length ∧
          ∀ e ∈ added, ∃ r ∈ rule :: rest, ∃ f, fieldNamed val.fields r.Field = some f ∧
            e.Message = r.Message ∧
            (e.Field = r.Field ∨ (e.Field ≠ "" ∧ getJSONTag t r.Field = .ok e.Field))) := by
      intro acc added ⟨h1, h2, h3⟩
      refine ⟨h1, Nat.le_succ_of_le h2, fun e he => ?_⟩
      obtain ⟨r, hr, hrest⟩ := h3 e he
      exact ⟨r, List.mem_cons_of_mem _ hr, hrest⟩
    simp only [validateRulesIn] at h
    cases hg : getField val rule.Field with
    | error p => rw [hg] at h; simp at h
    | ok fieldVal =>
      rw [hg] at h
      cases fieldVal with
      | none =>
        obtain ⟨added, hadd⟩ := ih c errs h
        exact ⟨added, lift errs added hadd⟩
      | some fv =>
        obtain ⟨f, hf⟩ := getField_some val rule.Field fv hg
        simp only [] at h
        cases hi : fv.Interface with
        | error p => rw [hi] at h; simp at h
        | ok x =>
          rw [hi] at h
          simp only [] at h
          rcases hv : VarCached c x rule.Tag with ⟨r, c1⟩
          rw [hv] at h
          cases r with
          | error p => simp at h
          | ok failed =>
            cases failed with
            | false =>
              simp only [Bool.false_eq_true, if_false] at h
              obtain ⟨added, hadd⟩ := ih c1 errs h
              exact ⟨added, lift errs added hadd⟩
            | true =>
              simp only [if_true] at h
              cases hj : getJSONTag t rule.Field with
              | error p => rw [hj] at h; simp at h
              | ok jsonTag =>
                rw [hj] at h
                simp only [] at h
                obtain ⟨added, h1, h2, h3⟩ := ih c1 _ h
                refine ⟨{ Field := if jsonTag ≠ "" then jsonTag else rule.Field,
                          Message := rule.Message } :: added, ?_, ?_, ?_⟩
                · rw [h1, List.append_assoc]
                  rfl
                · exact Nat.succ_le_succ h2
                · intro e he
                  rcases List.mem_cons.mp he with heq | hin
                  · subst heq
                    refine ⟨rule, List.mem_cons_self _ _, f, hf, rfl, ?_⟩
                    by_cases hne : jsonTag ≠ ""
                    · right
                      rw [if_pos hne]
                      exact ⟨hne, hj⟩
                    · left
                      rw [if_neg hne]
                  · obtain ⟨r, hr, hrest⟩ := h3 e hin
                    exact ⟨r, List.mem_cons_of_mem _ hr, hrest⟩

/-! ## The claims -/

/-- C1: on the `invalidUser` of the tests, passed as a struct value with the
three test rules, `ValidateStruct` does not return the three expected errors:
the first rule fails on `John123`, and the lookup of the json name panics
(`Type.Elem` on the struct type `User`). The third rule, moreover, passes on
`31`, whose length is even. -/
theorem ValidateStruct_invalidUser_panics :
    Var testValidator "John123" "required,alpha" = .ok true ∧
    ValidateStruct testValidator (.struct invalidUser) testRules =
      .error .elemOfInvalidType ∧
    Var testValidator "31" "required,numeric,is-even" = .ok false :=
  ⟨rfl, rfl, rfl⟩

/-- C2, as stated, fails: on a struct value whose field `name` is unexported,
a rule naming that field with the registered predicate `alpha`, which returns
true on the field's value, makes the call panic instead of returning the empty
report. -/
theorem ValidateStruct_unexported_field_panics :
    PassesAsStated testValidator unexportedRecord
      { Field := "name", Tag := "alpha", Message := "letters only" } ∧
    ValidateStruct testValidator (.struct unexportedRecord)
      [{ Field := "name", Tag := "alpha", Message := "letters only" }] =
        .error .interfaceOfUnexported := by
  refine ⟨⟨_, rfl, ?_⟩, rfl⟩
  intro name hmem
  have hnames : tagNames "alpha" = ["alpha"] := by decide
  rw [hnames, List.mem_singleton] at hmem
  subst hmem
  exact ⟨_, rfl, rfl⟩

/-- C2, amended: for a record supplied as a struct value, a rule whose field
exists and is exported and whose expression names only registered predicates
that all return true on the field's value produces no error: the call returns
what it returns with that rule removed; and when every rule of the list is
such a rule, the report is empty. -/
theorem ValidateStruct_no_false_positive {α : Type} (v : Validator α)
    (fields : List (StructField × α)) (rule : Rule) (r1 r2 rules : List Rule)
    (hrule : Passes v fields rule) (hall : ∀ r ∈ rules, Passes v fields r) :
    ValidateStruct v (.struct fields) (r1 ++ rule :: r2) =
      ValidateStruct v (.struct fields) (r1 ++ r2) ∧
    ValidateStruct v (.struct fields) rules = .ok [] := by
  constructor
  · exact validateRules_remove v _ rule (validateRules_pass v fields rule hrule) r1 r2 []
  · unfold ValidateStruct
    induction rules with
    | nil => rfl
    | cons a rest ih =>
      rw [validateRules_pass v fields a (hall a (List.mem_cons_self _ _))]
      exact ih (fun r hr => hall r (List.mem_cons_of_mem _ hr))

/-- C3: on a `User` whose `Age` is `123`, the last predicate of
`required,numeric,is-even` returns false, the expression fails, and
`ValidateStruct` panics in the lookup of the json name instead of emitting the
error of the rule. -/
theorem ValidateStruct_failing_last_predicate_panics :
    isRequired "123" = true ∧ isNumeric "123" = true ∧ isEven "123" = false ∧
    Var testValidator "123" "required,numeric,is-even" = .ok true ∧
    ValidateStruct testValidator (.struct (User "JohnDoe" "john.doe@example.com" "123"))
      [{ Field := "Age", Tag := "required,numeric,is-even",
         Message := "Age must be an even integer" }] = .error .elemOfInvalidType :=
  ⟨rfl, rfl, rfl, rfl, rfl⟩

/-- Witness of C2 (amended): the `validUser` of the tests with the three test
rules, each of which passes. -/
theorem ValidateStruct_no_false_positive_witness :
    Passes testValidator validUser
      { Field := "Name", Tag := "required,alpha", Message := "Name must contain only letters" } ∧
    (∀ r ∈ testRules, Passes testValidator validUser r) ∧
    ValidateStruct testValidator (.struct validUser)
      ([] ++ { Field := "Name", Tag := "required,alpha",
               Message := "Name must contain only letters" } :: []) =
      ValidateStruct testValidator (.struct validUser) ([] ++ []) ∧
    ValidateStruct testValidator (.struct validUser) testRules = .ok [] :=
  ⟨⟨_, rfl, rfl, holds_of_holdsAll _ _ _ rfl⟩, testRules_pass_validUser,
    ValidateStruct_no_false_positive testValidator validUser
      { Field := "Name", Tag := "required,alpha", Message := "Name must contain only letters" }
      [] [] testRules ⟨_, rfl, rfl, holds_of_holdsAll _ _ _ rfl⟩ testRules_pass_validUser⟩

/-- C5: on the struct value `invalidUser` with the rule on `Email`, whose
predicates are registered, the rule fails on its field and `ValidateStruct`
panics instead of returning a report. -/
theorem ValidateStruct_failing_rule_no_report :
    holdsAll testValidator "invalid-email" ["required"] = true ∧
    Var testValidator "invalid-email" "required,email" = .ok true ∧
    ValidateStruct testValidator (.struct invalidUser)
      [{ Field := "Email", Tag := "required,email",
         Message := "Email must be a valid email address" }] = .error .elemOfInvalidType :=
  ⟨rfl, rfl, rfl⟩

/-- C6: the same record gives different outcomes as a struct value and as a
pointer: the `validUser` of the tests yields the empty report as a value and a
panic in `getField` as a pointer; with a failing field neither form names the
field, the value form panics in `getJSONTag`, the pointer form in `getField`. -/
theorem ValidateStruct_pointer_differs_from_value :
    ValidateStruct testValidator (.struct validUser) testRules = .ok [] ∧
    ValidateStruct testValidator (.ptr validUser) testRules =
      .error .valueFieldByNameOnNonStruct ∧
    ValidateStruct testValidator (.struct invalidUser) testRules =
      .error .elemOfInvalidType ∧
    ValidateStruct testValidator (.ptr invalidUser) testRules =
      .error .valueFieldByNameOnNonStruct :=
  ⟨rfl, rfl, rfl, rfl⟩

/-- C7: on the type that `ValidateStruct` passes for a `User` value, the struct
type itself, `getJSONTag` panics for the field `Name`, whose annotation is
`name`; it returns `name` on the pointer type. -/
theorem getJSONTag_struct_type_panics :
    StructTag.Get [("json", "name")] "json" = "name" ∧
    getJSONTag (Arg.TypeOf (Arg.struct validUser)) "Name" = .error .elemOfInvalidType ∧
    getJSONTag (Arg.TypeOf (Arg.ptr validUser)) "Name" = .ok "name" :=
  ⟨rfl, rfl, rfl⟩

/-- C8: on a struct value whose field `Nick` has no json annotation, a failing
rule on `Nick` produces no error named `Nick`: the call panics. -/
theorem ValidateStruct_untagged_field_panics :
    Var testValidator "nick42" "alpha" = .ok true ∧
    ValidateStruct testValidator (.struct untaggedRecord)
      [{ Field := "Nick", Tag := "alpha", Message := "Nick must contain only letters" }] =
        .error .elemOfInvalidType :=
  ⟨rfl, rfl⟩

/-- C9: for every record, supplied as a value or as a pointer, and every rule
list containing a rule whose field exists on the record and whose expression
names a predicate that is not registered, `ValidateStruct` returns no report:
the call panics. -/
theorem ValidateStruct_unknown_predicate_fatal {α : Type} (v : Validator α) (s : Arg α)
    (rules : List Rule) (rule : Rule) (hmem : rule ∈ rules)
    (hfield : s.HasField rule.Field)
    (hunk : ∃ name ∈ tagNames rule.Tag, v.validations.lookup name = none) :
    ∃ p, ValidateStruct v s rules = .error p := by
  cases hres : ValidateStruct v s rules with
  | error p => exact ⟨p, rfl⟩
  | ok out =>
    obtain ⟨r1, r2, hsplit⟩ := List.append_of_mem hmem
    rw [hsplit] at hres
    obtain ⟨errs1, h1⟩ := validateRules_ok_suffix v s r1 (rule :: r2) [] out hres
    exact absurd h1 (validateRules_unknown v s rule hfield hunk r2 errs1 out)

/-- Witness of C9: after the three test rules on the `validUser`, a rule on
`Age` whose first predicate fails on `30` and whose second is unregistered. -/
theorem ValidateStruct_unknown_predicate_fatal_witness :
    ({ Field := "Age", Tag := "alpha,no-such-predicate", Message := "m" } : Rule) ∈
      testRules ++ [{ Field := "Age", Tag := "alpha,no-such-predicate", Message := "m" }] ∧
    (Arg.struct validUser).HasField "Age" ∧
    isAlpha "30" = false ∧
    (∃ name ∈ tagNames "alpha,no-such-predicate",
      testValidator.validations.lookup name = none) ∧
    ∃ p, ValidateStruct testValidator (.struct validUser)
      (testRules ++ [{ Field := "Age", Tag := "alpha,no-such-predicate", Message := "m" }]) =
        .error p :=
  ⟨by simp, ⟨_, rfl⟩, rfl, ⟨"no-such-predicate", by decide, rfl⟩,
    ValidateStruct_unknown_predicate_fatal testValidator (.struct validUser)
      (testRules ++ [{ Field := "Age", Tag := "alpha,no-such-predicate", Message := "m" }])
      { Field := "Age", Tag := "alpha,no-such-predicate", Message := "m" }
      (by simp) ⟨_, rfl⟩ ⟨"no-such-predicate", by decide, rfl⟩⟩

/-- C10: after `SetMessage` on a report with one entry for the field `name`,
the entry still has its old message. -/
theorem SetMessage_keeps_old_message :
    SetMessage [{ Field := "name", Message := "Name must contain only letters" }]
      "name" "Name is invalid" =
      [{ Field := "name", Message := "Name must contain only letters" }] :=
  rfl

/-- C11: `SetMessage` keeps the number of entries, their order and every
`Field`, leaves every entry whose `Field` differs from the given field as it
was, position by position, and leaves the whole report as it was when no entry
has the given field. -/
theorem SetMessage_targeted (e : Errors) (field message : String) :
    (SetMessage e field message).length = e.length ∧
    (SetMessage e field message).map Error.Field = e.map Error.Field ∧
    (∀ (i : Nat) (x : Error), e[i]? = some x → x.Field ≠ field →
      (SetMessage e field message)[i]? = some x) ∧
    ((∀ x ∈ e, x.Field ≠ field) → SetMessage e field message = e) := by
  rw [SetMessage_eq]
  exact ⟨rfl, rfl, fun _ _ h _ => h, fun _ => rfl⟩

/-- Witness of C11: a report with entries for `name` and `age`, and a call for
the field `email`, which no entry has. -/
theorem SetMessage_targeted_witness :
    (∀ x ∈ ([{ Field := "name", Message := "a" }, { Field := "age", Message := "b" }] : Errors),
      x.Field ≠ "email") ∧
    SetMessage [{ Field := "name", Message := "a" }, { Field := "age", Message := "b" }]
      "email" "c" =
      [{ Field := "name", Message := "a" }, { Field := "age", Message := "b" }] :=
  ⟨by decide,
    (SetMessage_targeted
      [{ Field := "name", Message := "a" }, { Field := "age", Message := "b" }]
      "email" "c").2.2.2 (by decide)⟩

/-- C12: on the `invalidUser` of the tests, the failing rule on `Name` given
twice does not produce two equal entries: the call panics at the first of the
two, as the call with the rule given once does. -/
theorem ValidateStruct_duplicate_rule_panics :
    ValidateStruct testValidator (.struct invalidUser)
      [{ Field := "Name", Tag := "required,alpha", Message := "Name must contain only letters" },
       { Field := "Name", Tag := "required,alpha", Message := "Name must contain only letters" }]
      = .error .elemOfInvalidType ∧
    ValidateStruct testValidator (.struct invalidUser)
      [{ Field := "Name", Tag := "required,alpha", Message := "Name must contain only letters" }]
      = .error .elemOfInvalidType :=
  ⟨rfl, rfl⟩

/-- C13, as stated, fails: on a struct value whose only field `name` is
unexported, the one rule of the list names that field and its expression
passes on the field's value, yet the call panics and returns no empty report. -/
theorem ValidateStruct_valid_unexported_no_report :
    (∀ rule ∈ [({ Field := "name", Tag := "required", Message := "name is required" } : Rule)],
      ∀ f, fieldNamed unexportedRecord rule.Field = some f →
        ExprPasses testValidator rule.Tag f.2) ∧
    ValidateStruct testValidator (.struct unexportedRecord)
      [{ Field := "name", Tag := "required", Message := "name is required" }] =
        .error .interfaceOfUnexported := by
  refine ⟨?_, rfl⟩
  intro rule hr f hf
  rw [List.mem_singleton] at hr
  subst hr
  have hfield : fieldNamed unexportedRecord "name" =
      some ({ Name := "name", PkgPath := "validation", Tag := [("json", "name")] }, "JohnDoe") :=
    rfl
  have hf2 : fieldNamed unexportedRecord "name" = some f := hf
  rw [hfield] at hf2
  have hfe := Option.some.inj hf2
  subst hfe
  exact holds_of_holdsAll _ _ _ rfl

/-- C13, amended: for a record supplied as a struct value and a rule list in
which every rule whose field exists names an exported field, `ValidateStruct`
returns the empty report if and only if every rule whose field exists on the
record has an expression that passes on the field's value. -/
theorem ValidateStruct_empty_iff_valid {α : Type} (v : Validator α)
    (fields : List (StructField × α)) (rules : List Rule)
    (hexp : ∀ rule ∈ rules, ∀ f, fieldNamed fields rule.Field = some f → f.1.PkgPath = "") :
    ValidateStruct v (.struct fields) rules = .ok [] ↔
      ∀ rule ∈ rules, ∀ f, fieldNamed fields rule.Field = some f →
        ExprPasses v rule.Tag f.2 := by
  constructor
  · intro hres rule hmem f hf
    obtain ⟨r1, r2, hsplit⟩ := List.append_of_mem hmem
    rw [hsplit] at hres
    obtain ⟨errs1, h1⟩ := validateRules_ok_suffix v _ r1 (rule :: r2) [] [] hres
    exact exprPasses_of_Var v f.2 rule.Tag (validateRules_cons_ok v fields rule r2 errs1 [] f h1 hf).2
  · intro hall
    unfold ValidateStruct
    induction rules with
    | nil => rfl
    | cons a rest ih =>
      have hrest := ih (fun r hr => hexp r (List.mem_cons_of_mem _ hr))
        (fun r hr => hall r (List.mem_cons_of_mem _ hr))
      cases hf : fieldNamed fields a.Field with
      | none =>
        have hget : getField (Arg.struct fields) a.Field = .ok none := by
          simp [getField, Arg.FieldByName, hf]
        rw [validateRules_skip v _ a hget]
        exact hrest
      | some f =>
        have hpass : Passes v fields a :=
          ⟨f, hf, hexp a (List.mem_cons_self _ _) f hf, hall a (List.mem_cons_self _ _) f hf⟩
        rw [validateRules_pass v fields a hpass]
        exact hrest

/-- Witness of C13 (amended): the `validUser` of the tests with the three test
rules, whose fields are exported; the report is empty. -/
theorem ValidateStruct_empty_iff_valid_witness :
    (∀ rule ∈ testRules, ∀ f, fieldNamed validUser rule.Field = some f → f.1.PkgPath = "") ∧
    ValidateStruct testValidator (.struct validUser) testRules = .ok [] ∧
    (ValidateStruct testValidator (.struct validUser) testRules = .ok [] ↔
      ∀ rule ∈ testRules, ∀ f, fieldNamed validUser rule.Field = some f →
        ExprPasses testValidator rule.Tag f.2) :=
  ⟨fun _ _ f hf => validUser_exported f (fieldNamed_mem _ _ f hf), rfl,
    ValidateStruct_empty_iff_valid testValidator validUser testRules
      (fun _ _ f hf => validUser_exported f (fieldNamed_mem _ _ f hf))⟩

/-- C14, as stated, fails: on a struct value whose field `name` is unexported,
a rule naming that field with the empty expression makes the call panic; the
call without the rule returns the empty report. -/
theorem ValidateStruct_empty_tag_unexported_panics :
    (fieldNamed unexportedRecord "name").isSome = true ∧
    ValidateStruct testValidator (.struct unexportedRecord)
      [{ Field := "name", Tag := "", Message := "never" }] = .error .interfaceOfUnexported ∧
    ValidateStruct testValidator (.struct unexportedRecord) [] = .ok [] :=
  ⟨rfl, rfl, rfl⟩

/-- C14, amended: for a record supplied as a struct value, a rule whose field
exists and is exported and whose `Tag` is the empty string emits no error and
does not make the call fail: the call returns what it returns with that rule
removed. -/
theorem ValidateStruct_empty_tag_noop {α : Type} (v : Validator α)
    (fields : List (StructField × α)) (rule : Rule) (f : StructField × α)
    (r1 r2 : List Rule) (hf : fieldNamed fields rule.Field = some f)
    (hexp : f.1.PkgPath = "") (htag : rule.Tag = "") :
    ValidateStruct v (.struct fields) (r1 ++ rule :: r2) =
      ValidateStruct v (.struct fields) (r1 ++ r2) := by
  have hpass : Passes v fields rule := by
    refine ⟨f, hf, hexp, ?_⟩
    intro name hmem
    rw [htag] at hmem
    simp [tagNames] at hmem
  exact validateRules_remove v _ rule (validateRules_pass v fields rule hpass) r1 r2 []

/-- Witness of C14 (amended): a rule on `Name` with the empty expression after
the three test rules, on the `validUser` of the tests. -/
theorem ValidateStruct_empty_tag_noop_witness :
    fieldNamed validUser "Name" =
      some ({ Name := "Name", PkgPath := "", Tag := [("json", "name")] }, "JohnDoe") ∧
    ValidateStruct testValidator (.struct validUser)
      (testRules ++ { Field := "Name", Tag := "", Message := "never" } :: []) =
      ValidateStruct testValidator (.struct validUser) (testRules ++ []) :=
  ⟨rfl, ValidateStruct_empty_tag_noop testValidator validUser
    { Field := "Name", Tag := "", Message := "never" }
    ({ Name := "Name", PkgPath := "", Tag := [("json", "name")] }, "JohnDoe")
    testRules [] rfl rfl rfl⟩

/-- C15: `Register` with the nil `ValidatorFunc` under the name `is-even`
returns no error and installs a predicate under that name; an expression that
names it panics when it is evaluated. -/
theorem Register_nil_installs :
    (Register newValidator "is-even" none).2 = none ∧
    ((Register newValidator "is-even" none).1.validations.lookup "is-even").isSome = true ∧
    (newValidator.validations.lookup "is-even").isSome = false ∧
    Var (Register newValidator "is-even" none).1 "30" "is-even" = .error .nilDereference :=
  ⟨rfl, rfl, rfl, rfl⟩

/-- C17: the string of `Errors.Error` starts with `validation errors: ` and
contains the rendering of every entry, one after the other in report order; an
entry renders as its `Message`; equal reports give equal strings. -/
theorem Errors_Error_lists_entries (e : Errors) :
    "validation errors: ".data <+: (Errors.Error e).data ∧
    OccurInOrder (e.map (fun x => (Error.Error x).data)) (Errors.Error e).data ∧
    (∀ x : Error, Error.Error x = x.Message) ∧
    (∀ e2 : Errors, e2 = e → Errors.Error e2 = Errors.Error e) := by
  refine ⟨?_, ?_, fun _ => rfl, fun e2 h => by rw [h]⟩
  · exact ⟨_, (String.data_append _ _).symm⟩
  · have h := OccurInOrder_joinSpace (e.map Error.Error) "]".data
    rw [List.map_map] at h
    have h2 := OccurInOrder_prepend _ ("validation errors: ".data ++ "[".data) _ h
    simpa [Errors.Error, String.data_append, List.append_assoc, Function.comp_def] using h2

/-- C20: a string that `getJSONTag` returns contains no comma, is a prefix of
the json annotation of the field when the type has the field, and is `-` only
when the annotation starts with `-,`; and in a report that `ValidateStruct`
returns, the `Field` of every entry is the field of a rule or a comma-free
prefix of the annotation of that rule's field. -/
theorem getJSONTag_result_shape {α : Type} (t : RType) (name out : String)
    (v : Validator α) (s : Arg α) (rules : List Rule) (report : Errors)
    (h : getJSONTag t name = .ok out) (hr : ValidateStruct v s rules = .ok report) :
    ',' ∉ out.data ∧
    (∀ fields f, t = .ptr (.struct fields) →
      fields.find? (fun g => g.Name == name) = some f →
        out.data <+: (f.Tag.Get "json").data ∧
        (out = "-" → "-,".data <+: (f.Tag.Get "json").data)) ∧
    ∀ e ∈ report, ∃ rule ∈ rules, e.Field = rule.Field ∨
      (',' ∉ e.Field.data ∧ ∃ f, fieldNamed s.fields rule.Field = some f ∧
        e.Field.data <+: (f.1.Tag.Get "json").data) := by
  have hnil := ValidateStruct_ok_nil v s rules report hr
  subst hnil
  cases t with
  | struct fields => simp [getJSONTag_struct] at h
  | ptr elem =>
    cases elem with
    | ptr e2 => simp [getJSONTag, RType.Elem, RType.FieldByName, bind, Except.bind] at h
    | struct fields =>
      rw [getJSONTag_ptr_struct] at h
      have hout := (Except.ok.inj h).symm
      refine ⟨?_, ?_, fun e he => absurd he (List.not_mem_nil e)⟩
      · rw [hout]
        cases fields.find? (fun g => g.Name == name) with
        | none => simp
        | some f =>
          simp only []
          split
          · simp
          · exact beforeComma_no_comma _
      · intro fields2 f ht hfind
        have hfe : fields2 = fields := by
          injection ht with h1
          injection h1 with h2
          exact h2.symm ▸ rfl
        subst hfe
        rw [hfind] at hout
        simp only [] at hout
        by_cases hc : f.Tag.Get "json" = "" ∨ f.Tag.Get "json" = "-"
        · rw [if_pos hc] at hout
          subst hout
          exact ⟨ List.nil_prefix, fun hd => absurd hd (by decide)⟩
        · rw [if_neg hc] at hout
          subst hout
          exact ⟨beforeComma_initial _, fun hd =>
            beforeComma_dash _ hd (fun hne => hc (Or.inr hne))⟩

/-- Witness of C20: a field `Name` annotated `name,omitempty` on a pointer
type, for which `getJSONTag` returns `name`, and the `validUser` of the
tests with the three test rules. -/
theorem getJSONTag_result_shape_witness :
    getJSONTag
      (.ptr (.struct [{ Name := "Name", PkgPath := "", Tag := [("json", "name,omitempty")] }]))
      "Name" = .ok "name" ∧
    ValidateStruct testValidator (.struct validUser) testRules = .ok [] ∧
    ',' ∉ "name".data ∧
    "name".data <+: "name,omitempty".data :=
  have hw := getJSONTag_result_shape
    (.ptr (.struct [{ Name := "Name", PkgPath := "", Tag := [("json", "name,omitempty")] }]))
    "Name" "name" testValidator (.struct validUser) testRules [] rfl rfl
  ⟨rfl, rfl, hw.1,
    (hw.2.1 [{ Name := "Name", PkgPath := "", Tag := [("json", "name,omitempty")] }]
      { Name := "Name", PkgPath := "", Tag := [("json", "name,omitempty")] } rfl rfl).1⟩

/-- C4: on the `validUser` of the tests supplied as a pointer, a rule naming
the field `Phone`, which `User` does not have, makes the call panic in
`getField`, while the call without the rule returns the empty report; supplied
as a struct value the same record skips the rule. -/
theorem ValidateStruct_missing_field_pointer_panics :
    fieldNamed validUser "Phone" = none ∧
    ValidateStruct testValidator (.ptr validUser)
      [{ Field := "Phone", Tag := "required", Message := "Phone is required" }] =
        .error .valueFieldByNameOnNonStruct ∧
    ValidateStruct testValidator (.ptr validUser) [] = .ok [] ∧
    ValidateStruct testValidator (.struct validUser)
      [{ Field := "Phone", Tag := "required", Message := "Phone is required" }] = .ok [] :=
  ⟨rfl, rfl, rfl, rfl⟩

/-- C16, as stated, fails: once a rule with the expression `alpha` has been
evaluated, `Register("alpha", numeric)` followed by `Register("alpha",
is-even)` leaves that expression evaluated with the predicate it was first
resolved to: on `30`, on which the predicate registered last returns true, the
expression still fails. The same happens to `is-even` when a rule with that
expression is evaluated between its two registrations. -/
theorem Register_keeps_cached_expression :
    (ValidateStructCached newCached (.struct validUser)
      [{ Field := "Name", Tag := "alpha", Message := "Name must contain only letters" }]).1 =
        .ok [] ∧
    RegisterCached restrictedTag alphaEvaluated "alpha" (some (pureFunc isNumeric)) =
      .ok (alphaRegistered, none) ∧
    RegisterCached restrictedTag alphaRegistered "alpha" (some (pureFunc isEven)) =
      .ok (alphaReregistered, none) ∧
    (alphaReregistered.validator.validations.lookup "alpha").map (fun fn => fn "30") =
      some (.ok true) ∧
    (VarCached alphaReregistered "30" "alpha").1 = .ok true ∧
    RegisterCached restrictedTag newCached "is-even" (some (pureFunc isAlpha)) =
      .ok (isEvenRegistered, none) ∧
    (ValidateStructCached isEvenRegistered (.struct validUser)
      [{ Field := "Name", Tag := "is-even", Message := "Name must contain only letters" }]).1 =
        .ok [] ∧
    RegisterCached restrictedTag isEvenEvaluated "is-even" (some (pureFunc isEven)) =
      .ok (isEvenReregistered, none) ∧
    (isEvenReregistered.validator.validations.lookup "is-even").map (fun fn => fn "30") =
      some (.ok true) ∧
    (VarCached isEvenReregistered "30" "is-even").1 = .ok true :=
  ⟨rfl, rfl, rfl, rfl, rfl, rfl, rfl, rfl, rfl, rfl⟩

/-- C16, amended: for a name that an expression reads as one predicate name
and no rule with which as its expression has been evaluated yet, after
`Register(n, p1)` followed by `Register(n, p2)`, both returned, the expression
`n` is evaluated with `p2` only: it fails on a value exactly when `p2` returns
false on it. A registration that returns leaves the predicate under every
other name, and the cache, as they were. -/
theorem Register_replaces {α : Type} (restricted : String → Bool) (c c1 c2 : Cached α)
    (e1 e2 : Option RegistrationError) (n : String) (p1 p2 : Func α) (x : α)
    (hn : tagNames n = [n]) (hc : c.tagCache.lookup n = none)
    (h1 : RegisterCached restricted c n (some p1) = .ok (c1, e1))
    (h2 : RegisterCached restricted c1 n (some p2) = .ok (c2, e2)) :
    (VarCached c2 x n).1 = (p2 x).map (fun b => !b) ∧
    ∀ (m : String) (fn : ValidatorFunc α) (c3 : Cached α) (e3 : Option RegistrationError),
      m ≠ n → RegisterCached restricted c n fn = .ok (c3, e3) →
        c3.validator.validations.lookup m = c.validator.validations.lookup m ∧
        c3.tagCache = c.tagCache := by
  have hskip : ¬ (n = "" ∨ n = "-") := by
    intro hcon
    simp [tagNames, hcon] at hn
  have hsplit : Split n = [n] := by simpa [tagNames, hskip] using hn
  have hne : n ≠ "" := fun h => hskip (Or.inl h)
  have unfoldReg : ∀ (d d3 : Cached α) (fn : ValidatorFunc α) (e3 : Option RegistrationError),
      RegisterCached restricted d n fn = .ok (d3, e3) →
        d3 = { d with validator := (Register d.validator n fn).1 } := by
    intro d d3 fn e3 h
    unfold RegisterCached at h
    split at h
    · exact absurd h (by simp)
    · exact (congrArg Prod.fst (Except.ok.inj h)).symm
  constructor
  · have hc1 := unfoldReg c c1 (some p1) e1 h1
    have hc2 := unfoldReg c1 c2 (some p2) e2 h2
    subst hc1
    subst hc2
    have hl := Register_lookup_self (Register c.validator n (some p1)).1 n p2 hne
    have heff : effective
        { validator := (Register (Register c.validator n (some p1)).1 n (some p2)).1,
          tagCache := c.tagCache } n = .ok [p2] := by
      simp only [effective, hc, hsplit, resolveTags, hl]
    rw [VarCached_fst, heff]
    simp only [hskip, if_false, runValidations]
    cases p2 x with
    | error p => rfl
    | ok b => cases b <;> rfl
  · intro m fn c3 e3 hm h3
    have hc3 := unfoldReg c c3 fn e3 h3
    subst hc3
    exact ⟨Register_lookup_other c.validator n m fn hm, rfl⟩

/-- Witness of C16 (amended): `is-even` registered twice in a row on the
validator of `New()`, first with the letters predicate, then with the
predicate of the tests; no rule has been evaluated before. -/
theorem Register_replaces_witness :
    tagNames "is-even" = ["is-even"] ∧
    newCached.tagCache.lookup "is-even" = none ∧
    RegisterCached restrictedTag newCached "is-even" (some (pureFunc isAlpha)) =
      .ok (isEvenRegistered, none) ∧
    RegisterCached restrictedTag isEvenRegistered "is-even" (some (pureFunc isEven)) =
      .ok ({ isEvenRegistered with
              validator :=
                (Register isEvenRegistered.validator "is-even" (some (pureFunc isEven))).1 },
            none) ∧
    (VarCached { isEvenRegistered with
        validator :=
          (Register isEvenRegistered.validator "is-even" (some (pureFunc isEven))).1 }
      "30" "is-even").1 = (pureFunc isEven "30").map (fun b => !b) :=
  ⟨by decide, rfl, rfl, rfl,
    (Register_replaces restrictedTag newCached isEvenRegistered _ none none "is-even"
      (pureFunc isAlpha) (pureFunc isEven) "30" (by decide) rfl rfl rfl).1⟩

/-- C18: two calls of `ValidateStruct` in a row on the same record and rules,
the second on the validator the first leaves behind with the expressions it
has cached, have the same outcome; and the first call changes the outcome of
no later call, whatever its record and rules. -/
theorem ValidateStruct_idempotent {α : Type} (c : Cached α) (s : Arg α)
    (rules : List Rule) :
    (ValidateStructCached (ValidateStructCached c s rules).2 s rules).1 =
      (ValidateStructCached c s rules).1 ∧
    ∀ (s2 : Arg α) (rules2 : List Rule),
      (ValidateStructCached (ValidateStructCached c s rules).2 s2 rules2).1 =
        (ValidateStructCached c s2 rules2).1 := by
  have key : ∀ (s2 : Arg α) (rules2 : List Rule),
      (ValidateStructCached (ValidateStructCached c s rules).2 s2 rules2).1 =
        (ValidateStructCached c s2 rules2).1 := by
    intro s2 rules2
    exact validateRulesIn_congr s2 s2.TypeOf rules2 _ c []
      (fun other => validateRulesIn_effective s s.TypeOf rules c [] other)
  exact ⟨key s rules, key⟩

/-- C19: a report that the loop of `ValidateStruct` returns has at most as
many entries as there are rules, and every entry carries the `Message` of a
rule of the list whose field exists on the record, with `Field` that rule's
field or the json name `getJSONTag` returned for it. This holds whatever type
`t` the loop hands to `getJSONTag` and whatever the cache holds; a report that
`ValidateStruct` returns is the case `t = s.TypeOf`. -/
theorem ValidateStruct_report_from_rules {α : Type} (c : Cached α) (s : Arg α) (t : RType)
    (rules : List Rule) (report : Errors)
    (h : (validateRulesIn s t rules c []).1 = .ok report) :
    (report.length ≤ rules.length ∧
      ∀ e ∈ report, ∃ rule ∈ rules, ∃ f, fieldNamed s.fields rule.Field = some f ∧
        e.Message = rule.Message ∧
        (e.Field = rule.Field ∨ (e.Field ≠ "" ∧ getJSONTag t rule.Field = .ok e.Field))) ∧
    ∀ (v : Validator α) (returned : Errors), ValidateStruct v s rules = .ok returned →
      returned.length ≤ rules.length ∧
      ∀ e ∈ returned, ∃ rule ∈ rules, ∃ f, fieldNamed s.fields rule.Field = some f ∧
        e.Message = rule.Message ∧
        (e.Field = rule.Field ∨
          (e.Field ≠ "" ∧ getJSONTag s.TypeOf rule.Field = .ok e.Field)) := by
  constructor
  · obtain ⟨added, h1, h2, h3⟩ := validateRulesIn_report s t rules c [] report h
    rw [List.nil_append] at h1
    subst h1
    exact ⟨h2, h3⟩
  · intro v returned hv
    rw [← ValidateStructCached_fresh] at hv
    obtain ⟨added, h1, h2, h3⟩ :=
      validateRulesIn_report s s.TypeOf rules { validator := v, tagCache := [] } [] returned hv
    rw [List.nil_append] at h1
    subst h1
    exact ⟨h2, h3⟩

/-- Witness of C19: the `invalidUser` of the tests with the three test rules,
the loop handing `getJSONTag` the pointer type of `User`: the report has the
two entries of the rules on `Name` and `Email`, named `name` and `email`. -/
theorem ValidateStruct_report_from_rules_witness :
    (validateRulesIn (.struct invalidUser) (.ptr (.struct userFields)) testRules testCached
      []).1 =
      .ok [{ Field := "name", Message := "Name must contain only letters" },
           { Field := "email", Message := "Email must be a valid email address" }] ∧
    ([{ Field := "name", Message := "Name must contain only letters" },
      { Field := "email", Message := "Email must be a valid email address" }] :
        Errors).length ≤ testRules.length ∧
    ∀ e ∈ ([{ Field := "name", Message := "Name must contain only letters" },
            { Field := "email", Message := "Email must be a valid email address" }] : Errors),
      ∃ rule ∈ testRules, ∃ f,
        fieldNamed (Arg.struct invalidUser).fields rule.Field = some f ∧
        e.Message = rule.Message ∧
        (e.Field = rule.Field ∨
          (e.Field ≠ "" ∧ getJSONTag (.ptr (.struct userFields)) rule.Field = .ok e.Field)) :=
  ⟨rfl, (ValidateStruct_report_from_rules testCached (.struct invalidUser)
    (.ptr (.struct userFields)) testRules _ rfl).1⟩

end Validation
